import Mathlib

/-!
Verification of the path-parsing core of `gcp_pal/artifactregistry.py`
(class `ArtifactRegistry`): the constructor's parsing phase (lines 34-84),
`_get_level` (lines 97-115), `_get_path` (lines 117-144) and the dispatch
of `ls` (lines 266-280).

Python strings are modelled as `List Char`; a Python variable that may
hold `None` or a string is an `Option (List Char)`.  The helper functions
`pySplit`, `pyJoin`, `pyReplace`, `isPre` implement the semantics of
`str.split(sep)` (for a non-empty separator), `sep.join`, `str.replace`
and `str.startswith` as used by the source.  The parsing phase is given
twice: once with Python's exception behaviour explicit (`initE`, returning
`Except PyErr _`) and once as the total function `parseAR`; the two are
proved to agree, which is the "parsing never raises" property.
-/

/-- Python truthiness of an optional string: `None` and `""` are falsy. -/
def truthy : Option (List Char) → Bool
  | none => false
  | some s => !s.isEmpty

/-- Python `a or b` on optional strings: `a` if truthy, else `b`. -/
def pyOr (a b : Option (List Char)) : Option (List Char) :=
  if truthy a then a else b

/-- The literal list `['N','o','n','e']`: Python `str(None)`. -/
def lNone : List Char := ['N', 'o', 'n', 'e']

/-- Python f-string interpolation of a variable that may be `None`. -/
def fmtOpt : Option (List Char) → List Char
  | none => lNone
  | some s => s

/-- Python `str.startswith`: `isPre p s` holds when `p` is a leading run of `s`. -/
def isPre : List Char → List Char → Bool
  | [], _ => true
  | _ :: _, [] => false
  | a :: as, b :: bs => a == b && isPre as bs

/-- Occurrence test (Python `sep in s`): `hasOcc h t s` holds when the
non-empty word `h :: t` occurs as a contiguous substring of `s`. -/
def hasOcc (h : Char) (t : List Char) : List Char → Bool
  | [] => false
  | c :: rest => isPre (h :: t) (c :: rest) || hasOcc h t rest

/-- Scanner for Python `str.split(sep)` with the non-empty separator
`h :: t`.  While `skip = k + 1` the scanner is still consuming the tail of
a matched separator.  Recursion is structural in the string so that the
kernel can evaluate it on concrete inputs. -/
def splitGo (h : Char) (t : List Char) : List Char → Nat → List (List Char)
  | [], _ => [[]]
  | _ :: rest, k + 1 => splitGo h t rest k
  | c :: rest, 0 =>
    if isPre (h :: t) (c :: rest) then
      [] :: splitGo h t rest t.length
    else
      match splitGo h t rest 0 with
      | [] => [[c]]
      | p :: ps => (c :: p) :: ps

/-- Python `s.split(sep)` for the non-empty separator `h :: t`.
`"".split(sep) = [""]` and empty pieces are kept, as in Python. -/
def pySplit (h : Char) (t : List Char) (s : List Char) : List (List Char) :=
  splitGo h t s 0

/-- Python `sep.join(xs)`. -/
def pyJoin (sep : List Char) : List (List Char) → List Char
  | [] => []
  | [x] => x
  | x :: xs => x ++ (sep ++ pyJoin sep xs)

/-- Python `s.replace(old, new)` for non-empty `old = h :: t`: both scan
left to right over non-overlapping occurrences, so replacing is splitting
on `old` and joining with `new`. -/
def pyReplace (h : Char) (t nw s : List Char) : List Char :=
  pyJoin nw (pySplit h t s)

/-- Python list slice `xs[1::2]`: the elements at odd indices. -/
def oddIdx : List α → List α
  | [] => []
  | [_] => []
  | _ :: b :: rest => b :: oddIdx rest

/-! Character-list constants for the string literals used by the source. -/

/-- The literal `"projects"`. -/
def lProjects : List Char := ['p', 'r', 'o', 'j', 'e', 'c', 't', 's']

/-- The literal `"projects/"`, the marker of a fully-qualified path. -/
def lProjectsSlash : List Char := lProjects ++ ['/']

/-- The literal `"locations"`. -/
def lLocations : List Char := ['l', 'o', 'c', 'a', 't', 'i', 'o', 'n', 's']

/-- The literal `"repositories"`. -/
def lRepositories : List Char :=
  ['r', 'e', 'p', 'o', 's', 'i', 't', 'o', 'r', 'i', 'e', 's']

/-- The literal `"packages"`. -/
def lPackages : List Char := ['p', 'a', 'c', 'k', 'a', 'g', 'e', 's']

/-- The literal `"versions"`. -/
def lVersions : List Char := ['v', 'e', 'r', 's', 'i', 'o', 'n', 's']

/-- The literal `"tags"`. -/
def lTags : List Char := ['t', 'a', 'g', 's']

/-- Head character of the digest marker `"sha256:"`. -/
def shaH : Char := 's'

/-- Tail of the digest marker `"sha256:"`. -/
def shaT : List Char := ['h', 'a', '2', '5', '6', ':']

/-- The digest marker `"sha256:"`. -/
def lSha256 : List Char := shaH :: shaT

/-- The URL-encoded slash `"%2F"` decoded by the fully-qualified branch. -/
def lPct : List Char := ['%', '2', 'F']

/-- Level string `"digest"`. -/
def levelDigest : List Char := ['d', 'i', 'g', 'e', 's', 't']

/-- Level string `"image"`. -/
def levelImage : List Char := ['i', 'm', 'a', 'g', 'e']

/-- Level string `"repository"`. -/
def levelRepository : List Char :=
  ['r', 'e', 'p', 'o', 's', 'i', 't', 'o', 'r', 'y']

/-- Level string `"location"`. -/
def levelLocation : List Char := ['l', 'o', 'c', 'a', 't', 'i', 'o', 'n']

/-- Level string `"project"`. -/
def levelProject : List Char := ['p', 'r', 'o', 'j', 'e', 'c', 't']

/-- The keyword default `location="europe-west2"`. -/
def defaultLocation : List Char :=
  ['e', 'u', 'r', 'o', 'p', 'e', '-', 'w', 'e', 's', 't', '2']

/-- The `ValueError` message of `ls` at project level:
`"Cannot list items at the project level."`. -/
def lsErrMsg : List Char :=
  ['C', 'a', 'n', 'n', 'o', 't', ' ', 'l', 'i', 's', 't', ' ', 'i', 't',
   'e', 'm', 's', ' ', 'a', 't', ' ', 't', 'h', 'e', ' ', 'p', 'r', 'o',
   'j', 'e', 'c', 't', ' ', 'l', 'e', 'v', 'e', 'l', '.']

/-- The state of an `ArtifactRegistry` locator after `__init__`
(the SDK client handles of the real class are outside the model). -/
structure ArtifactRegistry where
  project : Option (List Char)
  location : Option (List Char)
  repository : Option (List Char)
  image : Option (List Char)
  version : Option (List Char)
  tag : Option (List Char)
  level : Option (List Char)
  path : List Char
deriving DecidableEq

/-- Model of `_get_level` (lines 97-115): most specific populated field, priority
digest > image > repository > location > project > none.  Conditions are
Python truthiness tests on the fields. -/
def getLevel (project location repository image version tag : Option (List Char)) :
    Option (List Char) :=
  if truthy tag || truthy version then some levelDigest
  else if truthy image then some levelImage
  else if truthy repository then some levelRepository
  else if truthy location then some levelLocation
  else if truthy project then some levelProject
  else none

/-- Model of `_get_path` (lines 117-144): build the fully-qualified resource name
for the current level (f-strings print `None` for unset fields), then,
when `shorten` holds, keep only the value segments (`path.split("/")[1::2]`
joined back with `"/"`).  `__init__` stores the shortened form. -/
def getPath (project location repository image version tag level : Option (List Char))
    (shorten : Bool) : List Char :=
  if level = none then []
  else
    let path :=
      if level = some levelProject then
        lProjects ++ ('/' :: fmtOpt project)
      else if level = some levelLocation then
        lProjects ++ ('/' :: (fmtOpt project ++ ('/' :: (lLocations ++
          ('/' :: fmtOpt location)))))
      else if level = some levelRepository then
        lProjects ++ ('/' :: (fmtOpt project ++ ('/' :: (lLocations ++
          ('/' :: (fmtOpt location ++ ('/' :: (lRepositories ++
          ('/' :: fmtOpt repository)))))))))
      else if level = some levelImage then
        lProjects ++ ('/' :: (fmtOpt project ++ ('/' :: (lLocations ++
          ('/' :: (fmtOpt location ++ ('/' :: (lRepositories ++
          ('/' :: (fmtOpt repository ++ ('/' :: (lPackages ++
          ('/' :: fmtOpt image)))))))))))))
      else if level = some levelDigest ∧ truthy tag then
        lProjects ++ ('/' :: (fmtOpt project ++ ('/' :: (lLocations ++
          ('/' :: (fmtOpt location ++ ('/' :: (lRepositories ++
          ('/' :: (fmtOpt repository ++ ('/' :: (lPackages ++
          ('/' :: (fmtOpt image ++ ('/' :: (lTags ++
          ('/' :: fmtOpt tag)))))))))))))))))
      else if level = some levelDigest ∧ truthy version then
        lProjects ++ ('/' :: (fmtOpt project ++ ('/' :: (lLocations ++
          ('/' :: (fmtOpt location ++ ('/' :: (lRepositories ++
          ('/' :: (fmtOpt repository ++ ('/' :: (lPackages ++
          ('/' :: (fmtOpt image ++ ('/' :: (lVersions ++
          ('/' :: (lSha256 ++ fmtOpt version))))))))))))))))))
      else []
    if shorten then pyJoin ['/'] (oddIdx (pySplit '/' [] path)) else path

/-- Lines 81-84 of `__init__`: a truthy tag clears the version, then the
level and the (shortened) canonical path are computed and stored. -/
def finalize (project location repository image version tag : Option (List Char)) :
    ArtifactRegistry :=
  let version2 := if truthy tag then none else version
  let level := getLevel project location repository image version2 tag
  ⟨project, location, repository, image, version2, tag, level,
    getPath project location repository image version2 tag level true⟩

/-- The fully-qualified branch of `__init__` (lines 34-51): for a path
starting with `"projects/"`, keep the value segments (`[1::2]`), decode
`%2F`, read project (index 0, keyword kept on `IndexError`) and location
(index 1, set to `None` on `IndexError`), and keep the rest of the path
(`[2:]` joined back).  Returns `(project, location, path)`. -/
def fqStep (path0 : List Char) (projectKw locationKw : Option (List Char)) :
    Option (List Char) × Option (List Char) × List Char :=
  if isPre lProjectsSlash path0 then
    let vals := pyReplace '%' ['2', 'F'] ['/'] (pyJoin ['/'] (oddIdx (pySplit '/' [] path0)))
    let project1 :=
      match (pySplit '/' [] vals)[0]? with
      | some v => some v
      | none => projectKw
    let location1 :=
      match (pySplit '/' [] vals)[1]? with
      | some v => some v
      | none => none
    (project1, location1, pyJoin ['/'] ((pySplit '/' [] vals).drop 2))
  else
    (projectKw, locationKw, path0)

/-- Lines 76-80 of `__init__`: split the image at the first `':'` into
image and tag; `IndexError` (no `':'`) or `AttributeError` (image is
`None`) leave both unchanged.  Returns `(tag, image)`. -/
def tagStep (image tagKw : Option (List Char)) :
    Option (List Char) × Option (List Char) :=
  match image with
  | none => (tagKw, none)
  | some s =>
    match (pySplit ':' [] s)[1]? with
    | some t => (some t, some ((pySplit ':' [] s).headD []))
    | none => (tagKw, some s)

/-- The parsing phase of `ArtifactRegistry.__init__` (lines 34-84) as a
total function.  `envProject` models `os.environ.get("PROJECT")` and
`authProject` models `get_auth_default()[1]`, the two external fallbacks
of the project field.  Each `try/except` of the source appears as a match
whose `none` case keeps the value the variable had.  Note that the image
keyword is always overwritten by line 63 (`path.split("/")[1:]` cannot
raise), and the repository keyword by line 59 (`path.split("/")[0]`
cannot raise either, because `split` never returns an empty list). -/
def parseAR (path0 : List Char)
    (projectKw locationKw repositoryKw imageKw versionKw tagKw : Option (List Char))
    (envProject authProject : Option (List Char)) : ArtifactRegistry :=
  let fq := fqStep path0 projectKw locationKw
  let path1 := fq.2.2
  let project2 := pyOr (pyOr fq.1 envProject) authProject
  let repository1 :=
    match (pySplit '/' [] path1)[0]? with
    | some v => some v
    | none => repositoryKw
  let imageParts := (pySplit '/' [] path1).drop 1
  let image1 : Option (List Char) :=
    if imageParts.length > 1 then some (pyJoin ['/'] imageParts.dropLast)
    else
      match imageParts with
      | [] => none
      | x :: _ => some x
  let version1 :=
    match (pySplit shaH shaT path1)[1]? with
    | some v => some v
    | none => versionKw
  let ti := tagStep image1 tagKw
  finalize project2 fq.2.1 repository1 ti.2 version1 ti.1

/-- Outcome of `ArtifactRegistry.ls` (lines 266-280): which single listing
method is dispatched, or the raised `ValueError`, or the implicit `None`
fall-through when no branch matches. -/
inductive LsCall where
  | callVersions
  | callImages
  | callRepositories
  | raiseValueError (msg : List Char)
  | returnNone
deriving DecidableEq

/-- Model of `ls` (lines 266-280). -/
def ls (ar : ArtifactRegistry) : LsCall :=
  if ar.level = some levelImage then LsCall.callVersions
  else if ar.level = some levelRepository then LsCall.callImages
  else if ar.level = some levelLocation then LsCall.callRepositories
  else if ar.level = some levelProject then LsCall.raiseValueError lsErrMsg
  else LsCall.returnNone

/-! The parsing phase with Python's exception behaviour explicit. -/

/-- Exception kinds that the statements of the parsing phase can raise. -/
inductive PyErr where
  | indexError
  | attributeError
deriving DecidableEq

/-- Python list indexing `xs[i]`: `IndexError` when out of range. -/
def pyIdx (xs : List (List Char)) (i : Nat) : Except PyErr (List Char) :=
  match xs[i]? with
  | some v => Except.ok v
  | none => Except.error PyErr.indexError

/-- A `try/except` block: an error whose kind is listed in `kinds` is
caught and the fallback `d` (the state the variables kept) is used;
other errors propagate. -/
def pyCatch (kinds : List PyErr) (x : Except PyErr α) (d : α) : Except PyErr α :=
  match x with
  | Except.ok a => Except.ok a
  | Except.error e => if kinds.contains e then Except.ok d else Except.error e

/-- Sequencing of possibly-raising statements. -/
def exBind (x : Except PyErr α) (f : α → Except PyErr β) : Except PyErr β :=
  match x with
  | Except.ok a => f a
  | Except.error e => Except.error e

/-- Variant of `fqStep` with explicit exceptions, as written in the source
(lines 38-51): the two indexings sit in `try/except IndexError`. -/
def fqStepE (path0 : List Char) (projectKw locationKw : Option (List Char)) :
    Except PyErr (Option (List Char) × Option (List Char) × List Char) :=
  if isPre lProjectsSlash path0 then
    let vals := pyReplace '%' ['2', 'F'] ['/'] (pyJoin ['/'] (oddIdx (pySplit '/' [] path0)))
    exBind (pyCatch [PyErr.indexError]
        (Except.map some (pyIdx (pySplit '/' [] vals) 0)) projectKw) fun project1 =>
    exBind (pyCatch [PyErr.indexError]
        (Except.map some (pyIdx (pySplit '/' [] vals) 1)) none) fun location1 =>
    Except.ok (project1, location1, pyJoin ['/'] ((pySplit '/' [] vals).drop 2))
  else
    Except.ok (projectKw, locationKw, path0)

/-- Variant of `tagStep` with explicit exceptions (lines 76-80): `self.image` being
`None` raises `AttributeError`, a missing `':'` raises `IndexError`; the
block catches both kinds. -/
def tagStepE (image tagKw : Option (List Char)) :
    Except PyErr (Option (List Char) × Option (List Char)) :=
  pyCatch [PyErr.indexError, PyErr.attributeError]
    (match image with
     | none => Except.error PyErr.attributeError
     | some s =>
       exBind (pyIdx (pySplit ':' [] s) 1) fun t =>
       Except.ok (some t, some ((pySplit ':' [] s).headD [])))
    (tagKw, image)

/-- The parsing phase of `__init__` with explicit exceptions: every
statement of lines 34-84 that can raise appears wrapped in the
`try/except` combinator `pyCatch` exactly as in the source. -/
def initE (path0 : List Char)
    (projectKw locationKw repositoryKw imageKw versionKw tagKw : Option (List Char))
    (envProject authProject : Option (List Char)) : Except PyErr ArtifactRegistry :=
  exBind (fqStepE path0 projectKw locationKw) fun fq =>
  let path1 := fq.2.2
  let project2 := pyOr (pyOr fq.1 envProject) authProject
  exBind (pyCatch [PyErr.indexError]
      (Except.map some (pyIdx (pySplit '/' [] path1) 0)) repositoryKw) fun repository1 =>
  let imageParts := (pySplit '/' [] path1).drop 1
  let image1 : Option (List Char) :=
    if imageParts.length > 1 then some (pyJoin ['/'] imageParts.dropLast)
    else
      match imageParts with
      | [] => none
      | x :: _ => some x
  exBind (pyCatch [PyErr.indexError]
      (Except.map some (pyIdx (pySplit shaH shaT path1) 1)) versionKw) fun version1 =>
  exBind (tagStepE image1 tagKw) fun ti =>
  Except.ok (finalize project2 fq.2.1 repository1 ti.2 version1 ti.1)

/-! Lemmas about the string primitives. -/

theorem isPre_append_self (p w : List Char) : isPre p (p ++ w) = true := by
  induction p with
  | nil => rfl
  | cons a as ih => simp [isPre, ih]

theorem isPre_iff_append (p s : List Char) :
    isPre p s = true ↔ ∃ w, s = p ++ w := by
  induction p generalizing s with
  | nil => simp [isPre]
  | cons a as ih =>
    cases s with
    | nil => simp [isPre]
    | cons b bs =>
      simp only [isPre, Bool.and_eq_true, beq_iff_eq, ih, List.cons_append,
        List.cons.injEq]
      constructor
      · rintro ⟨rfl, w, rfl⟩
        exact ⟨w, rfl, rfl⟩
      · rintro ⟨w, rfl, rfl⟩
        exact ⟨rfl, w, rfl⟩

theorem hasOcc_cons (h : Char) (t : List Char) (c : Char) (rest : List Char) :
    hasOcc h t (c :: rest) = (isPre (h :: t) (c :: rest) || hasOcc h t rest) := rfl

theorem hasOcc_parts (h : Char) (t u v : List Char) :
    hasOcc h t (u ++ ((h :: t) ++ v)) = true := by
  induction u with
  | nil =>
    show hasOcc h t (h :: (t ++ v)) = true
    rw [hasOcc_cons]
    have hp : isPre (h :: t) (h :: (t ++ v)) = true := by
      have := isPre_append_self (h :: t) v
      rw [List.cons_append] at this
      exact this
    rw [hp, Bool.true_or]
  | cons c cs ih =>
    show hasOcc h t (c :: (cs ++ ((h :: t) ++ v))) = true
    rw [hasOcc_cons, ih, Bool.or_true]

theorem hasOcc_false_of_not_mem (h : Char) (t : List Char) (c : Char)
    (hc : c ∈ h :: t) : ∀ s : List Char, c ∉ s → hasOcc h t s = false := by
  intro s
  induction s with
  | nil => intro _; rfl
  | cons b bs ih =>
    intro hs
    have hb : c ∉ bs := fun hm => hs (List.mem_cons_of_mem _ hm)
    have h1 : isPre (h :: t) (b :: bs) = false := by
      cases hp : isPre (h :: t) (b :: bs) with
      | false => rfl
      | true =>
        obtain ⟨w, hw⟩ := (isPre_iff_append _ _).mp hp
        exact absurd (hw ▸ List.mem_append_left w hc) hs
    rw [hasOcc_cons, h1, ih hb, Bool.or_self]

theorem splitGo_nil (h : Char) (t : List Char) (k : Nat) :
    splitGo h t [] k = [[]] := by
  cases k <;> rfl

theorem splitGo_succ (h : Char) (t : List Char) (c : Char) (rest : List Char)
    (k : Nat) : splitGo h t (c :: rest) (k + 1) = splitGo h t rest k := rfl

theorem splitGo_zero (h : Char) (t : List Char) (c : Char) (rest : List Char) :
    splitGo h t (c :: rest) 0 =
      if isPre (h :: t) (c :: rest) then [] :: splitGo h t rest t.length
      else
        match splitGo h t rest 0 with
        | [] => [[c]]
        | p :: ps => (c :: p) :: ps := rfl

theorem splitGo_skip (h : Char) (t : List Char) :
    ∀ u v : List Char, splitGo h t (u ++ v) u.length = splitGo h t v 0 := by
  intro u
  induction u with
  | nil => intro v; rfl
  | cons a as ih => intro v; exact ih v

theorem pySplit_no_occ (h : Char) (t : List Char) :
    ∀ s : List Char, hasOcc h t s = false → pySplit h t s = [s] := by
  intro s
  induction s with
  | nil => intro _; rfl
  | cons c rest ih =>
    intro hs
    rw [hasOcc_cons, Bool.or_eq_false_iff] at hs
    show splitGo h t (c :: rest) 0 = [c :: rest]
    rw [splitGo_zero, hs.1, if_neg (by simp)]
    have hr : splitGo h t rest 0 = [rest] := ih hs.2
    rw [hr]

theorem pySplit_append_sep (h : Char) (t : List Char) :
    ∀ x b : List Char,
      (∀ e, x.getLast? = some e → e ∉ h :: t) →
      hasOcc h t x = false →
      pySplit h t (x ++ ((h :: t) ++ b)) = x :: pySplit h t b := by
  intro x
  induction x with
  | nil =>
    intro b _ _
    show splitGo h t (h :: (t ++ b)) 0 = [] :: pySplit h t b
    have hp : isPre (h :: t) (h :: (t ++ b)) = true := by
      have := isPre_append_self (h :: t) b
      rw [List.cons_append] at this
      exact this
    rw [splitGo_zero, if_pos hp, splitGo_skip h t t b]
    rfl
  | cons c cs ih =>
    intro b hlast hocc
    have hocc' := hocc
    rw [hasOcc_cons, Bool.or_eq_false_iff] at hocc'
    have h1 : isPre (h :: t) (c :: (cs ++ ((h :: t) ++ b))) = false := by
      cases hp : isPre (h :: t) (c :: (cs ++ ((h :: t) ++ b))) with
      | false => rfl
      | true =>
        exfalso
        obtain ⟨w, hw⟩ := (isPre_iff_append _ _).mp hp
        have hw2 : (c :: cs) ++ ((h :: t) ++ b) = (h :: t) ++ w := by
          rw [List.cons_append]
          exact hw
        rcases List.append_eq_append_iff.mp hw2 with ⟨z, hz1, _⟩ | ⟨z, hz1, _⟩
        · -- c :: cs is a leading run of the separator: its last character
          -- would be a character of the separator, against `hlast`.
          have hne : (c :: cs) ≠ [] := List.cons_ne_nil c cs
          have hmem : (c :: cs).getLast hne ∈ h :: t := by
            have hm : (c :: cs).getLast hne ∈ (c :: cs) ++ z :=
              List.mem_append_left z (List.getLast_mem hne)
            rw [← hz1] at hm
            exact hm
          exact hlast _ (List.getLast?_eq_getLast _ hne) hmem
        · -- the separator is a leading run of c :: cs: an occurrence inside
          -- x, against `hocc`.
          have ho : hasOcc h t ((h :: t) ++ z) = true := by
            have := hasOcc_parts h t [] z
            rw [List.nil_append] at this
            exact this
          rw [← hz1] at ho
          rw [hocc] at ho
          exact Bool.false_ne_true ho
    show splitGo h t (c :: (cs ++ ((h :: t) ++ b))) 0 = (c :: cs) :: pySplit h t b
    rw [splitGo_zero, h1, if_neg (by simp)]
    have hlast' : ∀ e, cs.getLast? = some e → e ∉ h :: t := by
      intro e he
      apply hlast e
      cases cs with
      | nil => simp at he
      | cons d ds => rw [List.getLast?_cons_cons]; exact he
    have hr : splitGo h t (cs ++ ((h :: t) ++ b)) 0 = cs :: pySplit h t b :=
      ih b hlast' hocc'.2
    rw [hr]

theorem mem_of_getLastQ (l : List Char) (e : Char) (he : l.getLast? = some e) :
    e ∈ l := by
  cases l with
  | nil => simp at he
  | cons a as =>
    have hne : a :: as ≠ [] := List.cons_ne_nil a as
    rw [List.getLast?_eq_getLast _ hne, Option.some.injEq] at he
    rw [← he]
    exact List.getLast_mem hne

theorem getLastQ_append_single (a : List Char) (d : Char) :
    (a ++ [d]).getLast? = some d := by
  rw [List.getLast?_append]
  rfl

theorem pySplit_char_sep (c : Char) (a b : List Char) (ha : c ∉ a) :
    pySplit c [] (a ++ (c :: b)) = a :: pySplit c [] b := by
  have hlast : ∀ e, a.getLast? = some e → e ∉ [c] := by
    intro e he hm
    rw [List.mem_singleton] at hm
    exact ha (hm ▸ mem_of_getLastQ a e he)
  have hocc : hasOcc c [] a = false :=
    hasOcc_false_of_not_mem c [] c (List.mem_singleton_self c) a ha
  exact pySplit_append_sep c [] a b hlast hocc

theorem pySplit_no_sep_char (c : Char) (s : List Char) (hs : c ∉ s) :
    pySplit c [] s = [s] :=
  pySplit_no_occ c [] s
    (hasOcc_false_of_not_mem c [] c (List.mem_singleton_self c) s hs)

theorem pySplit_join_segments :
    ∀ ss : List (List Char), ss ≠ [] → (∀ s ∈ ss, '/' ∉ s) →
      pySplit '/' [] (pyJoin ['/'] ss) = ss := by
  intro ss
  induction ss with
  | nil => intro h _; exact absurd rfl h
  | cons x xs ih =>
    intro _ hs
    cases xs with
    | nil =>
      show pySplit '/' [] x = [x]
      exact pySplit_no_sep_char '/' x (hs x (List.mem_cons_self x []))
    | cons y ys =>
      show pySplit '/' [] (x ++ ('/' :: pyJoin ['/'] (y :: ys))) = x :: y :: ys
      rw [pySplit_char_sep '/' x _ (hs x (List.mem_cons_self _ _))]
      rw [ih (List.cons_ne_nil y ys) (fun s hm => hs s (List.mem_cons_of_mem x hm))]

theorem hasOcc_append_false (h : Char) (t : List Char) (d : Char)
    (hd : d ∉ h :: t) :
    ∀ x y : List Char, hasOcc h t x = false → hasOcc h t (d :: y) = false →
      hasOcc h t (x ++ (d :: y)) = false := by
  intro x
  induction x with
  | nil => intro y _ hy; exact hy
  | cons c cs ih =>
    intro y hx hy
    have hx' := hx
    rw [hasOcc_cons, Bool.or_eq_false_iff] at hx'
    have h1 : isPre (h :: t) (c :: (cs ++ (d :: y))) = false := by
      cases hp : isPre (h :: t) (c :: (cs ++ (d :: y))) with
      | false => rfl
      | true =>
        exfalso
        obtain ⟨w, hw⟩ := (isPre_iff_append _ _).mp hp
        have hw2 : (c :: cs) ++ (d :: y) = (h :: t) ++ w := by
          rw [List.cons_append]
          exact hw
        rcases List.append_eq_append_iff.mp hw2 with ⟨z, hz1, hz2⟩ | ⟨z, hz1, _⟩
        · cases z with
          | nil =>
            rw [List.append_nil] at hz1
            have hself : isPre (h :: t) (c :: cs) = true := by
              rw [hz1]
              have := isPre_append_self (c :: cs) []
              rw [List.append_nil] at this
              exact this
            rw [hx'.1] at hself
            exact Bool.false_ne_true hself
          | cons e es =>
            have hde : d = e := by
              rw [List.cons_append] at hz2
              injection hz2
            have he : e ∈ h :: t := by
              rw [hz1]
              exact List.mem_append_right (c :: cs) (List.mem_cons_self e es)
            rw [← hde] at he
            exact hd he
        · have ho : hasOcc h t ((h :: t) ++ z) = true := by
            have := hasOcc_parts h t [] z
            rw [List.nil_append] at this
            exact this
          rw [← hz1] at ho
          rw [hx] at ho
          exact Bool.false_ne_true ho
    show hasOcc h t (c :: (cs ++ (d :: y))) = false
    rw [hasOcc_cons, h1, ih y hx'.2 hy, Bool.or_self]

theorem isPre_projects_false (r w : List Char) (hr : '/' ∉ r)
    (hne : r ≠ lProjects) : isPre lProjectsSlash (r ++ ('/' :: w)) = false := by
  cases hp : isPre lProjectsSlash (r ++ ('/' :: w)) with
  | false => rfl
  | true =>
    exfalso
    obtain ⟨z, hz⟩ := (isPre_iff_append _ _).mp hp
    have hz2 : r ++ ('/' :: w) = lProjects ++ ('/' :: z) := by
      rw [hz]
      show lProjectsSlash ++ z = lProjects ++ ('/' :: z)
      rw [lProjectsSlash, List.append_assoc]
      rfl
    rcases List.append_eq_append_iff.mp hz2 with ⟨y, hy1, hy2⟩ | ⟨y, hy1, hy2⟩
    · cases y with
      | nil =>
        rw [List.append_nil] at hy1
        exact hne hy1.symm
      | cons e es =>
        have he : '/' = e := by
          rw [List.cons_append] at hy2
          injection hy2
        have hmem : e ∈ lProjects := by
          rw [hy1]
          exact List.mem_append_right r (List.mem_cons_self e es)
        rw [← he] at hmem
        exact absurd hmem (by decide)
    · cases y with
      | nil =>
        rw [List.append_nil] at hy1
        exact hne hy1
      | cons e es =>
        have he : '/' = e := by
          rw [List.cons_append] at hy2
          injection hy2
        have hmem : e ∈ r := by
          rw [hy1]
          exact List.mem_append_right lProjects (List.mem_cons_self e es)
        rw [← he] at hmem
        exact hr hmem

/-! Helper: the constructor always ends by running lines 81-84. -/

theorem parseAR_eq_finalize (path0 : List Char)
    (projectKw locationKw repositoryKw imageKw versionKw tagKw
      envProject authProject : Option (List Char)) :
    ∃ p l r i v t,
      parseAR path0 projectKw locationKw repositoryKw imageKw versionKw tagKw
        envProject authProject = finalize p l r i v t :=
  ⟨_, _, _, _, _, _, rfl⟩

/-- C5: for every combination of path and keyword arguments, after
construction completes, a truthy tag field forces the version field to be
`None`, no matter how version and tag were supplied. -/
theorem tag_clears_version (path0 : List Char)
    (projectKw locationKw repositoryKw imageKw versionKw tagKw
      envProject authProject : Option (List Char))
    (htag : truthy (parseAR path0 projectKw locationKw repositoryKw imageKw
      versionKw tagKw envProject authProject).tag = true) :
    (parseAR path0 projectKw locationKw repositoryKw imageKw versionKw tagKw
      envProject authProject).version = none := by
  obtain ⟨p, l, r, i, v, t, heq⟩ := parseAR_eq_finalize path0 projectKw
    locationKw repositoryKw imageKw versionKw tagKw envProject authProject
  rw [heq] at htag ⊢
  simp only [finalize] at htag ⊢
  rw [htag]
  simp

/-- Witness for C5 at the concrete input `"r/i:t"`. -/
theorem tag_clears_version_witness :
    truthy (parseAR ['r', '/', 'i', ':', 't'] none (some defaultLocation)
      none none none none none none).tag = true ∧
    (parseAR ['r', '/', 'i', ':', 't'] none (some defaultLocation)
      none none none none none none).version = none :=
  ⟨by decide,
    tag_clears_version ['r', '/', 'i', ':', 't'] none (some defaultLocation)
      none none none none none none (by decide)⟩

/-- C6: `_get_level` returns the single most specific applicable level in
the fixed priority order digest > image > repository > location > project >
none: each level is returned exactly when its field is the first truthy
one. -/
theorem level_most_specific (p l r i v t : Option (List Char)) :
    (getLevel p l r i v t = some levelDigest ↔
      (truthy t = true ∨ truthy v = true)) ∧
    (getLevel p l r i v t = some levelImage ↔
      (truthy t = false ∧ truthy v = false ∧ truthy i = true)) ∧
    (getLevel p l r i v t = some levelRepository ↔
      (truthy t = false ∧ truthy v = false ∧ truthy i = false ∧
        truthy r = true)) ∧
    (getLevel p l r i v t = some levelLocation ↔
      (truthy t = false ∧ truthy v = false ∧ truthy i = false ∧
        truthy r = false ∧ truthy l = true)) ∧
    (getLevel p l r i v t = some levelProject ↔
      (truthy t = false ∧ truthy v = false ∧ truthy i = false ∧
        truthy r = false ∧ truthy l = false ∧ truthy p = true)) ∧
    (getLevel p l r i v t = none ↔
      (truthy t = false ∧ truthy v = false ∧ truthy i = false ∧
        truthy r = false ∧ truthy l = false ∧ truthy p = false)) := by
  cases ht : truthy t <;> cases hv : truthy v <;> cases hi : truthy i <;>
    cases hr : truthy r <;> cases hl : truthy l <;> cases hp : truthy p <;>
    simp only [getLevel, ht, hv, hi, hr, hl, hp] <;> decide

/-- C9: `ls` raises the descriptive `ValueError` at project level and
dispatches to exactly one listing method at location, repository and image
levels. -/
theorem ls_dispatch (ar : ArtifactRegistry) :
    (ar.level = some levelProject → ls ar = LsCall.raiseValueError lsErrMsg) ∧
    (ar.level = some levelLocation → ls ar = LsCall.callRepositories) ∧
    (ar.level = some levelRepository → ls ar = LsCall.callImages) ∧
    (ar.level = some levelImage → ls ar = LsCall.callVersions) := by
  refine ⟨fun h => ?_, fun h => ?_, fun h => ?_, fun h => ?_⟩ <;>
    simp only [ls, h] <;> decide

/-- Witness for C9 on four constructed locators, one per level. -/
theorem ls_dispatch_witness :
    ls (parseAR [] (some ['p']) none none none none none none none) =
      LsCall.raiseValueError lsErrMsg ∧
    ls (parseAR [] (some ['p']) (some defaultLocation) none none none none
      none none) = LsCall.callRepositories ∧
    ls (parseAR ['r'] (some ['p']) (some defaultLocation) none none none none
      none none) = LsCall.callImages ∧
    ls (parseAR ['r', '/', 'i'] (some ['p']) (some defaultLocation) none none
      none none none none) = LsCall.callVersions :=
  ⟨(ls_dispatch _).1 (by decide), (ls_dispatch _).2.1 (by decide),
    (ls_dispatch _).2.2.1 (by decide), (ls_dispatch _).2.2.2 (by decide)⟩

/-- C10: at digest level (tag or version set) and when no level applies,
`ls` falls through every branch and returns `None` without raising and
without dispatching any listing method. -/
theorem ls_falls_through (ar : ArtifactRegistry)
    (h : ar.level = some levelDigest ∨ ar.level = none) :
    ls ar = LsCall.returnNone := by
  rcases h with h | h <;> simp only [ls, h] <;> decide

/-- Witness for C10: a digest-level locator and an all-unset locator. -/
theorem ls_falls_through_witness :
    ls (parseAR ['r', '/', 'i', ':', 't'] (some ['p']) (some defaultLocation)
      none none none none none none) = LsCall.returnNone ∧
    ls (parseAR [] none none none none none none none none) =
      LsCall.returnNone :=
  ⟨ls_falls_through _ (Or.inl (by decide)),
    ls_falls_through _ (Or.inr (by decide))⟩

/-- C3 (code bug in the source): constructing with the default empty path
and explicit repository/image/version keywords discards the repository and
image keywords — `"".split("/")[0]` is `""`, not an `IndexError`, so line
59 overwrites `repository` with `""`, and line 63 overwrites `image` with
`None` — while the version (and tag) keywords do survive.  The keyword
seeding the claim describes only works for version and tag. -/
theorem empty_path_discards_kwargs :
    (parseAR [] none (some defaultLocation) (some ['r']) (some ['i'])
      (some ['v']) none none none).repository = some [] ∧
    (parseAR [] none (some defaultLocation) (some ['r']) (some ['i'])
      (some ['v']) none none none).image = none ∧
    (parseAR [] none (some defaultLocation) (some ['r']) (some ['i'])
      (some ['v']) none none none).version = some ['v'] ∧
    (parseAR [] none (some defaultLocation) (some ['r']) (some ['i'])
      (some ['v']) none none none).tag = none ∧
    some ([] : List Char) ≠ some ['r'] := by
  decide

/-- C2 counterexample: the claim constrains I and T but not R, so take the
shorthand `R/I:T` with R = `"a/b"` (non-empty), I = `"i"`, T = `"t"`.  The
code splits the repository at the first `/` and drops the last tail
segment, yielding repository `"a"`, image `"b"` and no tag at all — not
repository `"a/b"`, image `"i"`, tag `"t"`. -/
theorem shorthand_tag_counterexample :
    (parseAR ['a', '/', 'b', '/', 'i', ':', 't'] none (some defaultLocation)
      none none none none none none).repository = some ['a'] ∧
    (parseAR ['a', '/', 'b', '/', 'i', ':', 't'] none (some defaultLocation)
      none none none none none none).image = some ['b'] ∧
    (parseAR ['a', '/', 'b', '/', 'i', ':', 't'] none (some defaultLocation)
      none none none none none none).tag = none ∧
    some ['a'] ≠ some ['a', '/', 'b'] := by decide

/-- C2 amended: for the shorthand `R/I:T` with R, I, T non-empty, R
containing no `/` and different from `"projects"` (so the path is not
taken for a fully-qualified one), I containing no `/` or `:`, and T
containing no `/` or `:`, construction with no version keyword yields
repository R, image I, tag T and version `None`. -/
theorem shorthand_tag_amended (R I T envProject authProject : List Char)
    (hRne : R ≠ []) (hIne : I ≠ []) (hTne : T ≠ [])
    (hRs : '/' ∉ R) (hRp : R ≠ lProjects)
    (hIs : '/' ∉ I) (hIc : ':' ∉ I)
    (hTs : '/' ∉ T) (hTc : ':' ∉ T) :
    (parseAR (R ++ ('/' :: (I ++ (':' :: T)))) none (some defaultLocation)
      none none none none (some envProject) (some authProject)).repository =
        some R ∧
    (parseAR (R ++ ('/' :: (I ++ (':' :: T)))) none (some defaultLocation)
      none none none none (some envProject) (some authProject)).image =
        some I ∧
    (parseAR (R ++ ('/' :: (I ++ (':' :: T)))) none (some defaultLocation)
      none none none none (some envProject) (some authProject)).tag =
        some T ∧
    (parseAR (R ++ ('/' :: (I ++ (':' :: T)))) none (some defaultLocation)
      none none none none (some envProject) (some authProject)).version =
        none := by
  have hfq : isPre lProjectsSlash (R ++ ('/' :: (I ++ (':' :: T)))) = false :=
    isPre_projects_false R _ hRs hRp
  have hX : '/' ∉ I ++ (':' :: T) := by
    intro hm
    rcases List.mem_append.mp hm with hm | hm
    · exact hIs hm
    · rcases List.mem_cons.mp hm with hm | hm
      · exact absurd hm (by decide)
      · exact hTs hm
  have hsplit : pySplit '/' [] (R ++ ('/' :: (I ++ (':' :: T)))) =
      [R, I ++ (':' :: T)] := by
    rw [pySplit_char_sep '/' R _ hRs, pySplit_no_sep_char '/' _ hX]
  have htag : pySplit ':' [] (I ++ (':' :: T)) = [I, T] := by
    rw [pySplit_char_sep ':' I T hIc, pySplit_no_sep_char ':' T hTc]
  have htr : truthy (some T) = true := by
    cases T with
    | nil => exact absurd rfl hTne
    | cons a as => rfl
  simp only [parseAR, fqStep, hfq, Bool.false_eq_true, if_false, hsplit,
    tagStep, finalize]
  simp [htag, htr]

theorem truthy_some (s : List Char) (h : s ≠ []) : truthy (some s) = true := by
  cases s with
  | nil => exact absurd rfl h
  | cons a as => rfl

theorem pyJoin_cons (sep x : List Char) (xs : List (List Char))
    (h : xs ≠ []) : pyJoin sep (x :: xs) = x ++ (sep ++ pyJoin sep xs) := by
  cases xs with
  | nil => exact absurd rfl h
  | cons y ys => rfl

theorem pyJoin_append_single (sep z : List Char) :
    ∀ ss : List (List Char), ss ≠ [] →
      pyJoin sep (ss ++ [z]) = pyJoin sep ss ++ (sep ++ z) := by
  intro ss
  induction ss with
  | nil => intro h; exact absurd rfl h
  | cons x xs ih =>
    intro _
    cases xs with
    | nil => rfl
    | cons y ys =>
      show x ++ (sep ++ pyJoin sep ((y :: ys) ++ [z])) =
        (x ++ (sep ++ pyJoin sep (y :: ys))) ++ (sep ++ z)
      rw [ih (List.cons_ne_nil y ys)]
      rw [List.append_assoc, List.append_assoc]

theorem mem_pyJoin (sep : List Char) :
    ∀ (ss : List (List Char)) (c : Char), c ∈ pyJoin sep ss →
      c ∈ sep ∨ ∃ s ∈ ss, c ∈ s := by
  intro ss
  induction ss with
  | nil => intro c hc; simp [pyJoin] at hc
  | cons x xs ih =>
    intro c hc
    cases xs with
    | nil =>
      right
      exact ⟨x, List.mem_cons_self x [], hc⟩
    | cons y ys =>
      have hc' : c ∈ x ++ (sep ++ pyJoin sep (y :: ys)) := hc
      rcases List.mem_append.mp hc' with hm | hm
      · right; exact ⟨x, List.mem_cons_self _ _, hm⟩
      · rcases List.mem_append.mp hm with hm | hm
        · left; exact hm
        · rcases ih c hm with hm | ⟨s, hs, hcs⟩
          · left; exact hm
          · right; exact ⟨s, List.mem_cons_of_mem x hs, hcs⟩

theorem isPre_cons_false (a : Char) (as : List Char) (b : Char) (bs : List Char)
    (hab : (a == b) = false) : isPre (a :: as) (b :: bs) = false := by
  show (a == b && isPre as bs) = false
  rw [hab, Bool.false_and]

theorem hasOcc_cons_false (h : Char) (t : List Char) (d : Char) (y : List Char)
    (hd : (h == d) = false) (hy : hasOcc h t y = false) :
    hasOcc h t (d :: y) = false := by
  rw [hasOcc_cons, isPre_cons_false h t d y hd, hy, Bool.or_self]

/-- C7 counterexample: for the shorthand `"r/a/b"` (tail `a/b`, no `:` and
no digest marker) the code joins only the tail segments *except the last*
(`path.split("/")[1:]` then `[:-1]`), so the image is `"a"`, not `"a/b"`;
the last segment `"b"` is silently dropped (it is the version slot). -/
theorem shorthand_tail_counterexample :
    (parseAR ['r', '/', 'a', '/', 'b'] none (some defaultLocation) none none
      none none none none).repository = some ['r'] ∧
    (parseAR ['r', '/', 'a', '/', 'b'] none (some defaultLocation) none none
      none none none none).image = some ['a'] ∧
    (parseAR ['r', '/', 'a', '/', 'b'] none (some defaultLocation) none none
      none none none none).version = none ∧
    some ['a'] ≠ some ['a', '/', 'b'] := by decide

/-- C7 amended, in two parts.  Part one: for a shorthand
`R/s1/.../sN` (N ≥ 2) whose tail segments contain no `:` (hence no digest
marker), the repository is R and the image is `s1/.../s(N-1)` — the
remaining segments *except the last* joined back with `/`; the last
segment is the version slot and is dropped, and the version stays unset.
Part two: when an additional last segment carries the `sha256:` marker
(path `R/s1/.../sN/sha256:V`), the text after the marker becomes the
version and the segments before it form the image.  In both parts R
contains no `/`, is not `"projects"` and contains no `sha256:`
occurrence. -/
theorem shorthand_tail_amended :
    (∀ (R : List Char) (ss : List (List Char)) (envProject authProject : List Char),
      R ≠ [] → '/' ∉ R → R ≠ lProjects → hasOcc shaH shaT R = false →
      1 < ss.length → (∀ s ∈ ss, '/' ∉ s) → (∀ s ∈ ss, ':' ∉ s) →
      (parseAR (R ++ ('/' :: pyJoin ['/'] ss)) none (some defaultLocation)
        none none none none (some envProject) (some authProject)).repository =
          some R ∧
      (parseAR (R ++ ('/' :: pyJoin ['/'] ss)) none (some defaultLocation)
        none none none none (some envProject) (some authProject)).image =
          some (pyJoin ['/'] ss.dropLast) ∧
      (parseAR (R ++ ('/' :: pyJoin ['/'] ss)) none (some defaultLocation)
        none none none none (some envProject) (some authProject)).version =
          none ∧
      (parseAR (R ++ ('/' :: pyJoin ['/'] ss)) none (some defaultLocation)
        none none none none (some envProject) (some authProject)).tag =
          none) ∧
    (∀ (R V : List Char) (ss : List (List Char)) (envProject authProject : List Char),
      R ≠ [] → '/' ∉ R → R ≠ lProjects → hasOcc shaH shaT R = false →
      ss ≠ [] → (∀ s ∈ ss, '/' ∉ s) → (∀ s ∈ ss, ':' ∉ s) →
      '/' ∉ V → ':' ∉ V →
      (parseAR (R ++ ('/' :: (pyJoin ['/'] ss ++ ('/' :: (lSha256 ++ V)))))
        none (some defaultLocation) none none none none (some envProject)
        (some authProject)).repository = some R ∧
      (parseAR (R ++ ('/' :: (pyJoin ['/'] ss ++ ('/' :: (lSha256 ++ V)))))
        none (some defaultLocation) none none none none (some envProject)
        (some authProject)).image = some (pyJoin ['/'] ss) ∧
      (parseAR (R ++ ('/' :: (pyJoin ['/'] ss ++ ('/' :: (lSha256 ++ V)))))
        none (some defaultLocation) none none none none (some envProject)
        (some authProject)).version = some V ∧
      (parseAR (R ++ ('/' :: (pyJoin ['/'] ss ++ ('/' :: (lSha256 ++ V)))))
        none (some defaultLocation) none none none none (some envProject)
        (some authProject)).tag = none) := by
  constructor
  · intro R ss envProject authProject hRne hRs hRp hRsha hlen hss hssc
    have hssne : ss ≠ [] := by
      intro h
      rw [h] at hlen
      exact absurd hlen (by decide)
    have hJc : ':' ∉ pyJoin ['/'] ss := by
      intro hm
      rcases mem_pyJoin ['/'] ss ':' hm with hm | ⟨s, hs, hcs⟩
      · exact absurd hm (by decide)
      · exact hssc s hs hcs
    have hfq : isPre lProjectsSlash (R ++ ('/' :: pyJoin ['/'] ss)) = false :=
      isPre_projects_false R _ hRs hRp
    have hsplit : pySplit '/' [] (R ++ ('/' :: pyJoin ['/'] ss)) = R :: ss := by
      rw [pySplit_char_sep '/' R _ hRs, pySplit_join_segments ss hssne hss]
    have hnosha : hasOcc shaH shaT (R ++ ('/' :: pyJoin ['/'] ss)) = false := by
      apply hasOcc_append_false shaH shaT '/' (by decide) R _ hRsha
      exact hasOcc_cons_false shaH shaT '/' _ (by decide)
        (hasOcc_false_of_not_mem shaH shaT ':' (by decide) _ hJc)
    have hsha : pySplit shaH shaT (R ++ ('/' :: pyJoin ['/'] ss)) =
        [R ++ ('/' :: pyJoin ['/'] ss)] := pySplit_no_occ shaH shaT _ hnosha
    have hdropc : ':' ∉ pyJoin ['/'] ss.dropLast := by
      intro hm
      rcases mem_pyJoin ['/'] ss.dropLast ':' hm with hm | ⟨s, hs, hcs⟩
      · exact absurd hm (by decide)
      · exact hssc s (List.dropLast_subset ss hs) hcs
    have htagsplit : pySplit ':' [] (pyJoin ['/'] ss.dropLast) =
        [pyJoin ['/'] ss.dropLast] := pySplit_no_sep_char ':' _ hdropc
    simp only [parseAR, fqStep, hfq, Bool.false_eq_true, if_false, hsplit,
      hsha, tagStep, finalize]
    simp [hlen, htagsplit]
  · intro R V ss envProject authProject hRne hRs hRp hRsha hssne hss hssc hVs hVc
    have hJc : ':' ∉ pyJoin ['/'] ss := by
      intro hm
      rcases mem_pyJoin ['/'] ss ':' hm with hm | ⟨s, hs, hcs⟩
      · exact absurd hm (by decide)
      · exact hssc s hs hcs
    have hsvs : '/' ∉ lSha256 ++ V := by
      intro hm
      rcases List.mem_append.mp hm with hm | hm
      · exact absurd hm (by decide)
      · exact hVs hm
    have hfq : isPre lProjectsSlash
        (R ++ ('/' :: (pyJoin ['/'] ss ++ ('/' :: (lSha256 ++ V))))) = false :=
      isPre_projects_false R _ hRs hRp
    have hpath : R ++ ('/' :: (pyJoin ['/'] ss ++ ('/' :: (lSha256 ++ V)))) =
        pyJoin ['/'] (R :: (ss ++ [lSha256 ++ V])) := by
      rw [pyJoin_cons ['/'] R _ (by simp), pyJoin_append_single ['/'] _ ss hssne]
      simp [List.append_assoc]
    have hallslash : ∀ s ∈ R :: (ss ++ [lSha256 ++ V]), '/' ∉ s := by
      intro s hs
      rcases List.mem_cons.mp hs with hs | hs
      · rw [hs]; exact hRs
      · rcases List.mem_append.mp hs with hs | hs
        · exact hss s hs
        · rw [List.mem_singleton.mp hs]; exact hsvs
    have hsplit : pySplit '/' []
        (R ++ ('/' :: (pyJoin ['/'] ss ++ ('/' :: (lSha256 ++ V))))) =
        R :: (ss ++ [lSha256 ++ V]) := by
      rw [hpath]
      exact pySplit_join_segments _ (List.cons_ne_nil _ _) hallslash
    -- the marker split: path = x ++ (sha256 marker ++ V)
    have hx : R ++ ('/' :: (pyJoin ['/'] ss ++ ('/' :: (lSha256 ++ V)))) =
        (R ++ ('/' :: (pyJoin ['/'] ss ++ ['/']))) ++ ((shaH :: shaT) ++ V) := by
      simp [List.append_assoc, lSha256]
    have hxlast : ∀ e, (R ++ ('/' :: (pyJoin ['/'] ss ++ ['/']))).getLast? =
        some e → e ∉ shaH :: shaT := by
      intro e he
      have h2 : (R ++ ('/' :: (pyJoin ['/'] ss ++ ['/']))) =
          (R ++ ('/' :: pyJoin ['/'] ss)) ++ ['/'] := by
        simp [List.append_assoc]
      rw [h2, getLastQ_append_single] at he
      rw [Option.some.injEq] at he
      rw [← he]
      decide
    have hxocc : hasOcc shaH shaT (R ++ ('/' :: (pyJoin ['/'] ss ++ ['/']))) =
        false := by
      apply hasOcc_append_false shaH shaT '/' (by decide) R _ hRsha
      apply hasOcc_cons_false shaH shaT '/' _ (by decide)
      apply hasOcc_append_false shaH shaT '/' (by decide)
      · exact hasOcc_false_of_not_mem shaH shaT ':' (by decide) _ hJc
      · decide
    have hVocc : hasOcc shaH shaT V = false :=
      hasOcc_false_of_not_mem shaH shaT ':' (by decide) V hVc
    have hshasplit : pySplit shaH shaT
        (R ++ ('/' :: (pyJoin ['/'] ss ++ ('/' :: (lSha256 ++ V))))) =
        [R ++ ('/' :: (pyJoin ['/'] ss ++ ['/'])), V] := by
      rw [hx, pySplit_append_sep shaH shaT _ V hxlast hxocc,
        pySplit_no_occ shaH shaT V hVocc]
    have htagsplit : pySplit ':' [] (pyJoin ['/'] ss) = [pyJoin ['/'] ss] :=
      pySplit_no_sep_char ':' _ hJc
    have hlen2 : 1 < (ss ++ [lSha256 ++ V]).length := by
      rw [List.length_append]
      have := List.length_pos.mpr hssne
      simp
      omega
    have hpos : 0 < ss.length := List.length_pos.mpr hssne
    simp only [parseAR, fqStep, hfq, Bool.false_eq_true, if_false, hsplit,
      hshasplit, tagStep, finalize]
    simp [hlen2, hpos, htagsplit, List.dropLast_concat, truthy]

/-- Witness for the amended C7: part one at `"r/a/b"`, part two at
`"r/i/sha256:v"`. -/
theorem shorthand_tail_amended_witness :
    ((parseAR ['r', '/', 'a', '/', 'b'] none (some defaultLocation) none none
        none none (some ['e']) (some ['x'])).repository = some ['r'] ∧
      (parseAR ['r', '/', 'a', '/', 'b'] none (some defaultLocation) none none
        none none (some ['e']) (some ['x'])).image = some ['a'] ∧
      (parseAR ['r', '/', 'a', '/', 'b'] none (some defaultLocation) none none
        none none (some ['e']) (some ['x'])).version = none ∧
      (parseAR ['r', '/', 'a', '/', 'b'] none (some defaultLocation) none none
        none none (some ['e']) (some ['x'])).tag = none) ∧
    ((parseAR ['r', '/', 'i', '/', 's', 'h', 'a', '2', '5', '6', ':', 'v']
        none (some defaultLocation) none none none none (some ['e'])
        (some ['x'])).repository = some ['r'] ∧
      (parseAR ['r', '/', 'i', '/', 's', 'h', 'a', '2', '5', '6', ':', 'v']
        none (some defaultLocation) none none none none (some ['e'])
        (some ['x'])).image = some ['i'] ∧
      (parseAR ['r', '/', 'i', '/', 's', 'h', 'a', '2', '5', '6', ':', 'v']
        none (some defaultLocation) none none none none (some ['e'])
        (some ['x'])).version = some ['v'] ∧
      (parseAR ['r', '/', 'i', '/', 's', 'h', 'a', '2', '5', '6', ':', 'v']
        none (some defaultLocation) none none none none (some ['e'])
        (some ['x'])).tag = none) :=
  ⟨shorthand_tail_amended.1 ['r'] [['a'], ['b']] ['e'] ['x'] (by decide)
      (by decide) (by decide) (by decide) (by decide) (by decide) (by decide),
    shorthand_tail_amended.2 ['r'] ['v'] [['i']] ['e'] ['x'] (by decide)
      (by decide) (by decide) (by decide) (by decide) (by decide) (by decide)
      (by decide) (by decide)⟩

/-- The seven identifier fields of a locator at once (the stored `path`
field is left out). -/
def fieldsEq (ar : ArtifactRegistry)
    (p l r i v t lv : Option (List Char)) : Prop :=
  ar.project = p ∧ ar.location = l ∧ ar.repository = r ∧ ar.image = i ∧
    ar.version = v ∧ ar.tag = t ∧ ar.level = lv

/-- The fully-qualified branch (lines 34-51) on a clean full path: value
segments are kept, `%2F` decoding is the identity when no segment holds
`%2F`, and project, location and the remaining shorthand path come out. -/
theorem fqStep_full (P L R I V : List Char) (pk lk : Option (List Char))
    (hPs : '/' ∉ P) (hLs : '/' ∉ L) (hRs : '/' ∉ R) (hIs : '/' ∉ I)
    (hVs : '/' ∉ V)
    (hPp : hasOcc '%' ['2', 'F'] P = false)
    (hLp : hasOcc '%' ['2', 'F'] L = false)
    (hRp : hasOcc '%' ['2', 'F'] R = false)
    (hIp : hasOcc '%' ['2', 'F'] I = false)
    (hVp : hasOcc '%' ['2', 'F'] V = false) :
    fqStep (lProjects ++ ('/' :: (P ++ ('/' :: (lLocations ++ ('/' :: (L ++
        ('/' :: (lRepositories ++ ('/' :: (R ++ ('/' :: (lPackages ++
        ('/' :: (I ++ ('/' :: (lVersions ++ ('/' :: (lSha256 ++
        V))))))))))))))))))) pk lk =
      (some P, some L, R ++ ('/' :: (I ++ ('/' :: (lSha256 ++ V))))) := by
  have hsv : '/' ∉ lSha256 ++ V := by
    intro hm
    rcases List.mem_append.mp hm with hm | hm
    · exact absurd hm (by decide)
    · exact hVs hm
  have hall : ∀ s ∈ [lProjects, P, lLocations, L, lRepositories, R,
      lPackages, I, lVersions, lSha256 ++ V], '/' ∉ s := by
    intro s hs
    simp only [List.mem_cons, List.not_mem_nil, or_false] at hs
    rcases hs with rfl | rfl | rfl | rfl | rfl | rfl | rfl | rfl | rfl | rfl
    · decide
    · exact hPs
    · decide
    · exact hLs
    · decide
    · exact hRs
    · decide
    · exact hIs
    · decide
    · exact hsv
  have hall5 : ∀ s ∈ [P, L, R, I, lSha256 ++ V], '/' ∉ s := by
    intro s hs
    simp only [List.mem_cons, List.not_mem_nil, or_false] at hs
    rcases hs with rfl | rfl | rfl | rfl | rfl
    · exact hPs
    · exact hLs
    · exact hRs
    · exact hIs
    · exact hsv
  have hsplit0 : pySplit '/' [] (lProjects ++ ('/' :: (P ++ ('/' ::
      (lLocations ++ ('/' :: (L ++ ('/' :: (lRepositories ++ ('/' :: (R ++
      ('/' :: (lPackages ++ ('/' :: (I ++ ('/' :: (lVersions ++ ('/' ::
      (lSha256 ++ V))))))))))))))))))) =
      [lProjects, P, lLocations, L, lRepositories, R, lPackages, I,
        lVersions, lSha256 ++ V] :=
    pySplit_join_segments _ (List.cons_ne_nil _ _) hall
  have hfqtrue : isPre lProjectsSlash (lProjects ++ ('/' :: (P ++ ('/' ::
      (lLocations ++ ('/' :: (L ++ ('/' :: (lRepositories ++ ('/' :: (R ++
      ('/' :: (lPackages ++ ('/' :: (I ++ ('/' :: (lVersions ++ ('/' ::
      (lSha256 ++ V))))))))))))))))))) = true := isPre_append_self _ _
  have hocc_vals : hasOcc '%' ['2', 'F'] (P ++ ('/' :: (L ++ ('/' :: (R ++
      ('/' :: (I ++ ('/' :: (lSha256 ++ V))))))))) = false := by
    apply hasOcc_append_false '%' ['2', 'F'] '/' (by decide) P _ hPp
    apply hasOcc_cons_false '%' ['2', 'F'] '/' _ (by decide)
    apply hasOcc_append_false '%' ['2', 'F'] '/' (by decide) L _ hLp
    apply hasOcc_cons_false '%' ['2', 'F'] '/' _ (by decide)
    apply hasOcc_append_false '%' ['2', 'F'] '/' (by decide) R _ hRp
    apply hasOcc_cons_false '%' ['2', 'F'] '/' _ (by decide)
    apply hasOcc_append_false '%' ['2', 'F'] '/' (by decide) I _ hIp
    apply hasOcc_cons_false '%' ['2', 'F'] '/' _ (by decide)
    show hasOcc '%' ['2', 'F'] (['s', 'h', 'a', '2', '5', '6'] ++
      (':' :: V)) = false
    apply hasOcc_append_false '%' ['2', 'F'] ':' (by decide) _ _ (by decide)
    exact hasOcc_cons_false '%' ['2', 'F'] ':' V (by decide) hVp
  have hreplace : pyReplace '%' ['2', 'F'] ['/'] (P ++ ('/' :: (L ++ ('/' ::
      (R ++ ('/' :: (I ++ ('/' :: (lSha256 ++ V))))))))) =
      P ++ ('/' :: (L ++ ('/' :: (R ++ ('/' :: (I ++ ('/' ::
      (lSha256 ++ V)))))))) := by
    rw [pyReplace, pySplit_no_occ '%' ['2', 'F'] _ hocc_vals]
    rfl
  have hsplitvals : pySplit '/' [] (P ++ ('/' :: (L ++ ('/' :: (R ++ ('/' ::
      (I ++ ('/' :: (lSha256 ++ V))))))))) =
      [P, L, R, I, lSha256 ++ V] :=
    pySplit_join_segments _ (List.cons_ne_nil _ _) hall5
  have hodd : pyJoin ['/'] (oddIdx [lProjects, P, lLocations, L,
      lRepositories, R, lPackages, I, lVersions, lSha256 ++ V]) =
      P ++ ('/' :: (L ++ ('/' :: (R ++ ('/' :: (I ++ ('/' ::
      (lSha256 ++ V)))))))) := rfl
  simp only [fqStep, hfqtrue, if_true, hsplit0, hodd, hreplace, hsplitvals]
  rfl

/-- C1 counterexample: the claim only excludes `/` from the segments, but
the fully-qualified branch decodes `%2F` (line 37).  With
P = `"p%2Fq"` (no `/` in it) in
`projects/p%2Fq/locations/l/repositories/r/packages/i/versions/sha256:v`,
the decoded value string re-splits and every field shifts: project becomes
`"p"` and location `"q"`, not P and `"l"`. -/
theorem fq_parse_counterexample :
    (parseAR (lProjects ++ ('/' :: (['p', '%', '2', 'F', 'q'] ++ ('/' ::
        (lLocations ++ ('/' :: (['l'] ++ ('/' :: (lRepositories ++ ('/' ::
        (['r'] ++ ('/' :: (lPackages ++ ('/' :: (['i'] ++ ('/' ::
        (lVersions ++ ('/' :: (lSha256 ++ ['v']))))))))))))))))))) none
      (some defaultLocation) none none none none none none).project =
        some ['p'] ∧
    (parseAR (lProjects ++ ('/' :: (['p', '%', '2', 'F', 'q'] ++ ('/' ::
        (lLocations ++ ('/' :: (['l'] ++ ('/' :: (lRepositories ++ ('/' ::
        (['r'] ++ ('/' :: (lPackages ++ ('/' :: (['i'] ++ ('/' ::
        (lVersions ++ ('/' :: (lSha256 ++ ['v']))))))))))))))))))) none
      (some defaultLocation) none none none none none none).location =
        some ['q'] ∧
    some ['p'] ≠ some ['p', '%', '2', 'F', 'q'] := by
  decide

/-- C1 amended: for the fully-qualified path
`projects/P/locations/L/repositories/R/packages/I/versions/sha256:V` with
non-empty segments free of `/`, I and V free of `:`, each segment
additionally free of the decoded escape `%2F`, and R free of a `sha256:`
occurrence, construction with default keywords yields project P,
location L, repository R, image I, version V, no tag, and level digest. -/
theorem fq_parse_amended (P L R I V envProject authProject : List Char)
    (hPne : P ≠ []) (hLne : L ≠ []) (hRne : R ≠ []) (hIne : I ≠ [])
    (hVne : V ≠ [])
    (hPs : '/' ∉ P) (hLs : '/' ∉ L) (hRs : '/' ∉ R) (hIs : '/' ∉ I)
    (hVs : '/' ∉ V) (hIc : ':' ∉ I) (hVc : ':' ∉ V)
    (hPp : hasOcc '%' ['2', 'F'] P = false)
    (hLp : hasOcc '%' ['2', 'F'] L = false)
    (hRp : hasOcc '%' ['2', 'F'] R = false)
    (hIp : hasOcc '%' ['2', 'F'] I = false)
    (hVp : hasOcc '%' ['2', 'F'] V = false)
    (hRsha : hasOcc shaH shaT R = false) :
    fieldsEq (parseAR (lProjects ++ ('/' :: (P ++ ('/' :: (lLocations ++
        ('/' :: (L ++ ('/' :: (lRepositories ++ ('/' :: (R ++ ('/' ::
        (lPackages ++ ('/' :: (I ++ ('/' :: (lVersions ++ ('/' :: (lSha256 ++
        V))))))))))))))))))) none (some defaultLocation) none none none none
        (some envProject) (some authProject))
      (some P) (some L) (some R) (some I) (some V) none
      (some levelDigest) := by
  have hfqs := fqStep_full P L R I V none (some defaultLocation) hPs hLs hRs
    hIs hVs hPp hLp hRp hIp hVp
  have hsv : '/' ∉ lSha256 ++ V := by
    intro hm
    rcases List.mem_append.mp hm with hm | hm
    · exact absurd hm (by decide)
    · exact hVs hm
  have hall3 : ∀ s ∈ [R, I, lSha256 ++ V], '/' ∉ s := by
    intro s hs
    simp only [List.mem_cons, List.not_mem_nil, or_false] at hs
    rcases hs with rfl | rfl | rfl
    · exact hRs
    · exact hIs
    · exact hsv
  have hsplit1 : pySplit '/' [] (R ++ ('/' :: (I ++ ('/' ::
      (lSha256 ++ V))))) = [R, I, lSha256 ++ V] :=
    pySplit_join_segments _ (List.cons_ne_nil _ _) hall3
  have hx : R ++ ('/' :: (I ++ ('/' :: (lSha256 ++ V)))) =
      (R ++ ('/' :: (I ++ ['/']))) ++ ((shaH :: shaT) ++ V) := by
    simp [List.append_assoc, lSha256]
  have hxlast : ∀ e, (R ++ ('/' :: (I ++ ['/']))).getLast? = some e →
      e ∉ shaH :: shaT := by
    intro e he
    have h2 : R ++ ('/' :: (I ++ ['/'])) = (R ++ ('/' :: I)) ++ ['/'] := by
      simp [List.append_assoc]
    rw [h2, getLastQ_append_single, Option.some.injEq] at he
    rw [← he]
    decide
  have hxocc : hasOcc shaH shaT (R ++ ('/' :: (I ++ ['/']))) = false := by
    apply hasOcc_append_false shaH shaT '/' (by decide) R _ hRsha
    apply hasOcc_cons_false shaH shaT '/' _ (by decide)
    apply hasOcc_append_false shaH shaT '/' (by decide)
    · exact hasOcc_false_of_not_mem shaH shaT ':' (by decide) I hIc
    · decide
  have hVocc : hasOcc shaH shaT V = false :=
    hasOcc_false_of_not_mem shaH shaT ':' (by decide) V hVc
  have hsha : pySplit shaH shaT (R ++ ('/' :: (I ++ ('/' ::
      (lSha256 ++ V))))) = [R ++ ('/' :: (I ++ ['/'])), V] := by
    rw [hx, pySplit_append_sep shaH shaT _ V hxlast hxocc,
      pySplit_no_occ shaH shaT V hVocc]
  have htagsplit : pySplit ':' [] I = [I] := pySplit_no_sep_char ':' I hIc
  have hPt : truthy (some P) = true := truthy_some P hPne
  have hVt : truthy (some V) = true := truthy_some V hVne
  have hj : pyJoin ['/'] [I] = I := rfl
  simp only [parseAR, hfqs, tagStep, finalize, fieldsEq]
  simp [hj, hsplit1, hsha, htagsplit, pyOr, truthy, getLevel, hPne, hVne]

/-- Witness for the amended C1 at
`projects/p1/locations/us/repositories/r1/packages/i1/versions/sha256:abc`. -/
theorem fq_parse_amended_witness :
    fieldsEq (parseAR (lProjects ++ ('/' :: (['p', '1'] ++ ('/' ::
        (lLocations ++ ('/' :: (['u', 's'] ++ ('/' :: (lRepositories ++
        ('/' :: (['r', '1'] ++ ('/' :: (lPackages ++ ('/' :: (['i', '1'] ++
        ('/' :: (lVersions ++ ('/' :: (lSha256 ++
        ['a', 'b', 'c']))))))))))))))))))) none (some defaultLocation) none
        none none none (some ['e']) (some ['x']))
      (some ['p', '1']) (some ['u', 's']) (some ['r', '1'])
      (some ['i', '1']) (some ['a', 'b', 'c']) none (some levelDigest) :=
  fq_parse_amended ['p', '1'] ['u', 's'] ['r', '1'] ['i', '1']
    ['a', 'b', 'c'] ['e'] ['x'] (by decide) (by decide) (by decide)
    (by decide) (by decide) (by decide) (by decide) (by decide) (by decide)
    (by decide) (by decide) (by decide) (by decide) (by decide) (by decide)
    (by decide) (by decide) (by decide)

theorem oddIdx_subset : ∀ (l : List (List Char)) (x : List Char),
    x ∈ oddIdx l → x ∈ l
  | [], x, hx => absurd hx (List.not_mem_nil x)
  | [_], x, hx => absurd hx (List.not_mem_nil x)
  | a :: b :: rest, x, hx => by
    rcases List.mem_cons.mp hx with hx | hx
    · rw [hx]
      exact List.mem_cons_of_mem a (List.mem_cons_self b rest)
    · exact List.mem_cons_of_mem a
        (List.mem_cons_of_mem b (oddIdx_subset rest x hx))

theorem hasOcc_pyJoin_slash_false (h : Char) (t : List Char)
    (hslash : '/' ∉ h :: t) (hh : (h == '/') = false) :
    ∀ ss : List (List Char), (∀ s ∈ ss, hasOcc h t s = false) →
      hasOcc h t (pyJoin ['/'] ss) = false := by
  intro ss
  induction ss with
  | nil => intro _; rfl
  | cons x xs ih =>
    intro hs
    cases xs with
    | nil => exact hs x (List.mem_cons_self x [])
    | cons y ys =>
      show hasOcc h t (x ++ ('/' :: pyJoin ['/'] (y :: ys))) = false
      apply hasOcc_append_false h t '/' hslash x _
        (hs x (List.mem_cons_self _ _))
      exact hasOcc_cons_false h t '/' _ hh
        (ih fun s hm => hs s (List.mem_cons_of_mem x hm))

/-- The fully-qualified branch on a clean path of any depth:
`projects/P/locations/L/` followed by any further alternating key/value
segments.  Value segments free of `%2F` make the decoding a no-op; the
output is `(P, L, remaining values joined)`. -/
theorem fqStep_parse (P L : List Char) (rest : List (List Char))
    (pk lk : Option (List Char))
    (hall : ∀ s ∈ lProjects :: P :: lLocations :: L :: rest, '/' ∉ s)
    (hpct : ∀ s ∈ P :: L :: oddIdx rest, hasOcc '%' ['2', 'F'] s = false) :
    fqStep (pyJoin ['/'] (lProjects :: P :: lLocations :: L :: rest)) pk lk =
      (some P, some L, pyJoin ['/'] (oddIdx rest)) := by
  have hvals : ∀ s ∈ P :: L :: oddIdx rest, '/' ∉ s := by
    intro s hs
    rcases List.mem_cons.mp hs with rfl | hs
    · exact hall s (List.mem_cons_of_mem _ (List.mem_cons_self _ _))
    · rcases List.mem_cons.mp hs with rfl | hs
      · exact hall s (List.mem_cons_of_mem _ (List.mem_cons_of_mem _
          (List.mem_cons_of_mem _ (List.mem_cons_self _ _))))
      · exact hall s (List.mem_cons_of_mem _ (List.mem_cons_of_mem _
          (List.mem_cons_of_mem _ (List.mem_cons_of_mem _
            (oddIdx_subset rest s hs)))))
  have hfqtrue : isPre lProjectsSlash
      (pyJoin ['/'] (lProjects :: P :: lLocations :: L :: rest)) = true :=
    isPre_append_self _ _
  have hsplit0 : pySplit '/' []
      (pyJoin ['/'] (lProjects :: P :: lLocations :: L :: rest)) =
      lProjects :: P :: lLocations :: L :: rest :=
    pySplit_join_segments _ (List.cons_ne_nil _ _) hall
  have hodd : oddIdx (lProjects :: P :: lLocations :: L :: rest) =
      P :: L :: oddIdx rest := rfl
  have hocc : hasOcc '%' ['2', 'F'] (pyJoin ['/'] (P :: L :: oddIdx rest)) =
      false :=
    hasOcc_pyJoin_slash_false '%' ['2', 'F'] (by decide) (by decide) _ hpct
  have hreplace : pyReplace '%' ['2', 'F'] ['/']
      (pyJoin ['/'] (P :: L :: oddIdx rest)) =
      pyJoin ['/'] (P :: L :: oddIdx rest) := by
    rw [pyReplace, pySplit_no_occ '%' ['2', 'F'] _ hocc]
    rfl
  have hsplitvals : pySplit '/' [] (pyJoin ['/'] (P :: L :: oddIdx rest)) =
      P :: L :: oddIdx rest :=
    pySplit_join_segments _ (List.cons_ne_nil _ _) hvals
  simp only [fqStep, hfqtrue, if_true, hsplit0, hodd, hreplace, hsplitvals]
  simp

/-- The concrete digest path of the round-trip counterexample:
`projects/p1/locations/us/repositories/r1/packages/i1/versions/sha256:abc`. -/
def rtFull : List Char :=
  lProjects ++ ('/' :: (['p', '1'] ++ ('/' :: (lLocations ++ ('/' ::
    (['u', 's'] ++ ('/' :: (lRepositories ++ ('/' :: (['r', '1'] ++ ('/' ::
    (lPackages ++ ('/' :: (['i', '1'] ++ ('/' :: (lVersions ++ ('/' ::
    (lSha256 ++ ['a', 'b', 'c']))))))))))))))))))

/-- The locator the counterexample constructs from `rtFull`. -/
def rtAR : ArtifactRegistry :=
  parseAR rtFull none (some defaultLocation) none none none none none none

/-- C4 counterexample: `__init__` stores the *shortened* canonical path
(`p1/us/r1/i1/sha256:abc`).  Re-parsing that stored path with the same
project/location defaults reads its first segment as the repository, so
the re-parsed repository is `"p1"` while the original was `"r1"`. -/
theorem roundtrip_counterexample :
    rtAR.path = ['p', '1', '/', 'u', 's', '/', 'r', '1', '/', 'i', '1', '/',
      's', 'h', 'a', '2', '5', '6', ':', 'a', 'b', 'c'] ∧
    (parseAR rtAR.path rtAR.project rtAR.location none none none none none
      none).repository = some ['p', '1'] ∧
    rtAR.repository = some ['r', '1'] ∧
    some ['p', '1'] ≠ some ['r', '1'] := by
  decide

set_option maxHeartbeats 1600000 in
/-- C4 amended: the stored shortened path does not round-trip (see the
counterexample).  What holds: re-parsing the *unshortened* canonical
resource name (`_get_path(shorten=False)`) with the same project and
location as keyword defaults reproduces all seven fields, for locators at
repository, image, or digest-with-a-version level whose populated fields
are clean segments (non-empty, free of `/` and `%2F`; the repository free
of `sha256:`; image and version free of `:`) and whose unpopulated fields
are `None`.  Tag-level, location-level and project-level paths do not
round-trip even unshortened. -/
theorem roundtrip_amended :
    (∀ P L R envProject authProject : List Char,
      P ≠ [] → L ≠ [] → R ≠ [] → '/' ∉ P → '/' ∉ L → '/' ∉ R →
      hasOcc '%' ['2', 'F'] P = false → hasOcc '%' ['2', 'F'] L = false →
      hasOcc '%' ['2', 'F'] R = false → hasOcc shaH shaT R = false →
      fieldsEq (parseAR (getPath (some P) (some L) (some R) none none none
          (some levelRepository) false) (some P) (some L) none none none none
          (some envProject) (some authProject))
        (some P) (some L) (some R) none none none (some levelRepository)) ∧
    (∀ P L R I envProject authProject : List Char,
      P ≠ [] → L ≠ [] → R ≠ [] → I ≠ [] → '/' ∉ P → '/' ∉ L → '/' ∉ R →
      '/' ∉ I → ':' ∉ I →
      hasOcc '%' ['2', 'F'] P = false → hasOcc '%' ['2', 'F'] L = false →
      hasOcc '%' ['2', 'F'] R = false → hasOcc '%' ['2', 'F'] I = false →
      hasOcc shaH shaT R = false →
      fieldsEq (parseAR (getPath (some P) (some L) (some R) (some I) none
          none (some levelImage) false) (some P) (some L) none none none none
          (some envProject) (some authProject))
        (some P) (some L) (some R) (some I) none none (some levelImage)) ∧
    (∀ P L R I V envProject authProject : List Char,
      P ≠ [] → L ≠ [] → R ≠ [] → I ≠ [] → V ≠ [] → '/' ∉ P → '/' ∉ L →
      '/' ∉ R → '/' ∉ I → '/' ∉ V → ':' ∉ I → ':' ∉ V →
      hasOcc '%' ['2', 'F'] P = false → hasOcc '%' ['2', 'F'] L = false →
      hasOcc '%' ['2', 'F'] R = false → hasOcc '%' ['2', 'F'] I = false →
      hasOcc '%' ['2', 'F'] V = false → hasOcc shaH shaT R = false →
      fieldsEq (parseAR (getPath (some P) (some L) (some R) (some I)
          (some V) none (some levelDigest) false) (some P) (some L) none none
          none none (some envProject) (some authProject))
        (some P) (some L) (some R) (some I) (some V) none
        (some levelDigest)) := by
  refine ⟨?_, ?_, ?_⟩
  · -- repository level
    intro P L R envProject authProject hPne hLne hRne hPs hLs hRs hPp hLp
      hRp hRsha
    have hgp : getPath (some P) (some L) (some R) none none none
        (some levelRepository) false =
        pyJoin ['/'] (lProjects :: P :: lLocations :: L ::
          [lRepositories, R]) := rfl
    have hall : ∀ s ∈ lProjects :: P :: lLocations :: L ::
        [lRepositories, R], '/' ∉ s := by
      intro s hs
      simp only [List.mem_cons, List.not_mem_nil, or_false] at hs
      rcases hs with rfl | rfl | rfl | rfl | rfl | rfl
      · decide
      · exact hPs
      · decide
      · exact hLs
      · decide
      · exact hRs
    have hpct : ∀ s ∈ P :: L :: oddIdx [lRepositories, R],
        hasOcc '%' ['2', 'F'] s = false := by
      intro s hs
      simp only [oddIdx, List.mem_cons, List.not_mem_nil, or_false] at hs
      rcases hs with rfl | rfl | rfl
      · exact hPp
      · exact hLp
      · exact hRp
    have hfqs := fqStep_parse P L [lRepositories, R] (some P) (some L)
      hall hpct
    have hpj : pyJoin ['/'] (oddIdx [lRepositories, R]) = R := rfl
    rw [hpj] at hfqs
    have hsplit : pySplit '/' [] R = [R] := pySplit_no_sep_char '/' R hRs
    have hsha : pySplit shaH shaT R = [R] :=
      pySplit_no_occ shaH shaT R hRsha
    simp only [hgp, parseAR, hfqs, tagStep, finalize, fieldsEq]
    simp [hsplit, hsha, pyOr, truthy, getLevel, hPne, hRne]
  · -- image level
    intro P L R I envProject authProject hPne hLne hRne hIne hPs hLs hRs
      hIs hIc hPp hLp hRp hIp hRsha
    have hgp : getPath (some P) (some L) (some R) (some I) none none
        (some levelImage) false =
        pyJoin ['/'] (lProjects :: P :: lLocations :: L ::
          [lRepositories, R, lPackages, I]) := rfl
    have hall : ∀ s ∈ lProjects :: P :: lLocations :: L ::
        [lRepositories, R, lPackages, I], '/' ∉ s := by
      intro s hs
      simp only [List.mem_cons, List.not_mem_nil, or_false] at hs
      rcases hs with rfl | rfl | rfl | rfl | rfl | rfl | rfl | rfl
      · decide
      · exact hPs
      · decide
      · exact hLs
      · decide
      · exact hRs
      · decide
      · exact hIs
    have hpct : ∀ s ∈ P :: L :: oddIdx [lRepositories, R, lPackages, I],
        hasOcc '%' ['2', 'F'] s = false := by
      intro s hs
      simp only [oddIdx, List.mem_cons, List.not_mem_nil, or_false] at hs
      rcases hs with rfl | rfl | rfl | rfl
      · exact hPp
      · exact hLp
      · exact hRp
      · exact hIp
    have hfqs := fqStep_parse P L [lRepositories, R, lPackages, I]
      (some P) (some L) hall hpct
    have hpj : pyJoin ['/'] (oddIdx [lRepositories, R, lPackages, I]) =
        R ++ ('/' :: I) := rfl
    rw [hpj] at hfqs
    have hsplit : pySplit '/' [] (R ++ ('/' :: I)) = [R, I] := by
      rw [pySplit_char_sep '/' R I hRs, pySplit_no_sep_char '/' I hIs]
    have hocc : hasOcc shaH shaT (R ++ ('/' :: I)) = false := by
      apply hasOcc_append_false shaH shaT '/' (by decide) R _ hRsha
      exact hasOcc_cons_false shaH shaT '/' _ (by decide)
        (hasOcc_false_of_not_mem shaH shaT ':' (by decide) I hIc)
    have hsha : pySplit shaH shaT (R ++ ('/' :: I)) = [R ++ ('/' :: I)] :=
      pySplit_no_occ shaH shaT _ hocc
    have htagsplit : pySplit ':' [] I = [I] := pySplit_no_sep_char ':' I hIc
    simp only [hgp, parseAR, hfqs, tagStep, finalize, fieldsEq]
    simp [hsplit, hsha, htagsplit, pyOr, truthy, getLevel, hPne, hIne]
  · -- digest level, version set
    intro P L R I V envProject authProject hPne hLne hRne hIne hVne hPs hLs
      hRs hIs hVs hIc hVc hPp hLp hRp hIp hVp hRsha
    have hVt : truthy (some V) = true := truthy_some V hVne
    have n1 : some levelDigest ≠ (none : Option (List Char)) := by decide
    have n2 : (some levelDigest : Option (List Char)) ≠ some levelProject :=
      by decide
    have n3 : (some levelDigest : Option (List Char)) ≠ some levelLocation :=
      by decide
    have n4 : (some levelDigest : Option (List Char)) ≠
        some levelRepository := by decide
    have n5 : (some levelDigest : Option (List Char)) ≠ some levelImage :=
      by decide
    have hgp : getPath (some P) (some L) (some R) (some I) (some V) none
        (some levelDigest) false =
        pyJoin ['/'] (lProjects :: P :: lLocations :: L ::
          [lRepositories, R, lPackages, I, lVersions, lSha256 ++ V]) := by
      simp [getPath, fmtOpt, hVt, truthy, hVne, n1, n2, n3, n4, n5, pyJoin,
        List.append_assoc]
    have hsv : '/' ∉ lSha256 ++ V := by
      intro hm
      rcases List.mem_append.mp hm with hm | hm
      · exact absurd hm (by decide)
      · exact hVs hm
    have hall : ∀ s ∈ lProjects :: P :: lLocations :: L ::
        [lRepositories, R, lPackages, I, lVersions, lSha256 ++ V],
        '/' ∉ s := by
      intro s hs
      simp only [List.mem_cons, List.not_mem_nil, or_false] at hs
      rcases hs with rfl | rfl | rfl | rfl | rfl | rfl | rfl | rfl | rfl | rfl
      · decide
      · exact hPs
      · decide
      · exact hLs
      · decide
      · exact hRs
      · decide
      · exact hIs
      · decide
      · exact hsv
    have hsvp : hasOcc '%' ['2', 'F'] (lSha256 ++ V) = false := by
      show hasOcc '%' ['2', 'F'] (['s', 'h', 'a', '2', '5', '6'] ++
        (':' :: V)) = false
      apply hasOcc_append_false '%' ['2', 'F'] ':' (by decide) _ _ (by decide)
      exact hasOcc_cons_false '%' ['2', 'F'] ':' V (by decide) hVp
    have hpct : ∀ s ∈ P :: L :: oddIdx [lRepositories, R, lPackages, I,
        lVersions, lSha256 ++ V], hasOcc '%' ['2', 'F'] s = false := by
      intro s hs
      simp only [oddIdx, List.mem_cons, List.not_mem_nil, or_false] at hs
      rcases hs with rfl | rfl | rfl | rfl | rfl
      · exact hPp
      · exact hLp
      · exact hRp
      · exact hIp
      · exact hsvp
    have hfqs := fqStep_parse P L [lRepositories, R, lPackages, I,
      lVersions, lSha256 ++ V] (some P) (some L) hall hpct
    have hpj : pyJoin ['/'] (oddIdx [lRepositories, R, lPackages, I,
        lVersions, lSha256 ++ V]) =
        R ++ ('/' :: (I ++ ('/' :: (lSha256 ++ V)))) := rfl
    rw [hpj] at hfqs
    have hall3 : ∀ s ∈ [R, I, lSha256 ++ V], '/' ∉ s := by
      intro s hs
      simp only [List.mem_cons, List.not_mem_nil, or_false] at hs
      rcases hs with rfl | rfl | rfl
      · exact hRs
      · exact hIs
      · exact hsv
    have hsplit1 : pySplit '/' [] (R ++ ('/' :: (I ++ ('/' ::
        (lSha256 ++ V))))) = [R, I, lSha256 ++ V] :=
      pySplit_join_segments _ (List.cons_ne_nil _ _) hall3
    have hx : R ++ ('/' :: (I ++ ('/' :: (lSha256 ++ V)))) =
        (R ++ ('/' :: (I ++ ['/']))) ++ ((shaH :: shaT) ++ V) := by
      simp [List.append_assoc, lSha256]
    have hxlast : ∀ e, (R ++ ('/' :: (I ++ ['/']))).getLast? = some e →
        e ∉ shaH :: shaT := by
      intro e he
      have h2 : R ++ ('/' :: (I ++ ['/'])) = (R ++ ('/' :: I)) ++ ['/'] := by
        simp [List.append_assoc]
      rw [h2, getLastQ_append_single, Option.some.injEq] at he
      rw [← he]
      decide
    have hxocc : hasOcc shaH shaT (R ++ ('/' :: (I ++ ['/']))) = false := by
      apply hasOcc_append_false shaH shaT '/' (by decide) R _ hRsha
      apply hasOcc_cons_false shaH shaT '/' _ (by decide)
      apply hasOcc_append_false shaH shaT '/' (by decide)
      · exact hasOcc_false_of_not_mem shaH shaT ':' (by decide) I hIc
      · decide
    have hVocc : hasOcc shaH shaT V = false :=
      hasOcc_false_of_not_mem shaH shaT ':' (by decide) V hVc
    have hsha : pySplit shaH shaT (R ++ ('/' :: (I ++ ('/' ::
        (lSha256 ++ V))))) = [R ++ ('/' :: (I ++ ['/'])), V] := by
      rw [hx, pySplit_append_sep shaH shaT _ V hxlast hxocc,
        pySplit_no_occ shaH shaT V hVocc]
    have htagsplit : pySplit ':' [] I = [I] := pySplit_no_sep_char ':' I hIc
    have hj : pyJoin ['/'] [I] = I := rfl
    simp only [hgp, parseAR, hfqs, tagStep, finalize, fieldsEq]
    simp [hj, hsplit1, hsha, htagsplit, pyOr, truthy, getLevel, hPne, hVne]

/-- Witness for the amended C4: one locator per covered level. -/
theorem roundtrip_amended_witness :
    fieldsEq (parseAR (getPath (some ['p']) (some ['u']) (some ['r']) none
        none none (some levelRepository) false) (some ['p']) (some ['u'])
        none none none none (some ['e']) (some ['x']))
      (some ['p']) (some ['u']) (some ['r']) none none none
      (some levelRepository) ∧
    fieldsEq (parseAR (getPath (some ['p']) (some ['u']) (some ['r'])
        (some ['i']) none none (some levelImage) false) (some ['p'])
        (some ['u']) none none none none (some ['e']) (some ['x']))
      (some ['p']) (some ['u']) (some ['r']) (some ['i']) none none
      (some levelImage) ∧
    fieldsEq (parseAR (getPath (some ['p']) (some ['u']) (some ['r'])
        (some ['i']) (some ['v']) none (some levelDigest) false) (some ['p'])
        (some ['u']) none none none none (some ['e']) (some ['x']))
      (some ['p']) (some ['u']) (some ['r']) (some ['i']) (some ['v']) none
      (some levelDigest) :=
  ⟨roundtrip_amended.1 ['p'] ['u'] ['r'] ['e'] ['x'] (by decide) (by decide)
      (by decide) (by decide) (by decide) (by decide) (by decide) (by decide)
      (by decide) (by decide),
    roundtrip_amended.2.1 ['p'] ['u'] ['r'] ['i'] ['e'] ['x'] (by decide)
      (by decide) (by decide) (by decide) (by decide) (by decide) (by decide)
      (by decide) (by decide) (by decide) (by decide) (by decide) (by decide)
      (by decide),
    roundtrip_amended.2.2 ['p'] ['u'] ['r'] ['i'] ['v'] ['e'] ['x']
      (by decide) (by decide) (by decide) (by decide) (by decide) (by decide)
      (by decide) (by decide) (by decide) (by decide) (by decide) (by decide)
      (by decide) (by decide) (by decide) (by decide) (by decide)
      (by decide)⟩

theorem pyCatchIdx (xs : List (List Char)) (i : Nat) (d : Option (List Char)) :
    pyCatch [PyErr.indexError] (Except.map some (pyIdx xs i)) d =
      Except.ok (match xs[i]? with
        | some v => some v
        | none => d) := by
  cases h : xs[i]? <;> simp [pyCatch, pyIdx, h, Except.map]

theorem tagStepE_eq (image tagKw : Option (List Char)) :
    tagStepE image tagKw = Except.ok (tagStep image tagKw) := by
  cases image with
  | none => rfl
  | some s =>
    cases h : (pySplit ':' [] s)[1]? <;>
      simp [tagStepE, tagStep, pyIdx, h, pyCatch, exBind]

theorem fqStepE_eq (path0 : List Char) (pk lk : Option (List Char)) :
    fqStepE path0 pk lk = Except.ok (fqStep path0 pk lk) := by
  cases h : isPre lProjectsSlash path0 <;>
    simp [fqStepE, fqStep, h, pyCatchIdx, exBind]

/-- C8: the parsing phase of `__init__` never raises: run with Python's
exception behaviour explicit, every statement that can raise sits inside a
`try/except` that catches exactly its error kinds, so for every string
path (of any shape, the empty string included) and every combination of
keyword and environment values the outcome is `Except.ok` of the total
parse. -/
theorem parsing_never_raises (path0 : List Char)
    (projectKw locationKw repositoryKw imageKw versionKw tagKw
      envProject authProject : Option (List Char)) :
    initE path0 projectKw locationKw repositoryKw imageKw versionKw tagKw
        envProject authProject =
      Except.ok (parseAR path0 projectKw locationKw repositoryKw imageKw
        versionKw tagKw envProject authProject) := by
  simp [initE, parseAR, fqStepE_eq, pyCatchIdx, tagStepE_eq, exBind]

/-- Witness for the amended C2 at `"r/i:t"`. -/
theorem shorthand_tag_amended_witness :
    (parseAR (['r'] ++ ('/' :: (['i'] ++ (':' :: ['t'])))) none
      (some defaultLocation) none none none none (some ['e'])
      (some ['x'])).repository = some ['r'] ∧
    (parseAR (['r'] ++ ('/' :: (['i'] ++ (':' :: ['t'])))) none
      (some defaultLocation) none none none none (some ['e'])
      (some ['x'])).image = some ['i'] ∧
    (parseAR (['r'] ++ ('/' :: (['i'] ++ (':' :: ['t'])))) none
      (some defaultLocation) none none none none (some ['e'])
      (some ['x'])).tag = some ['t'] ∧
    (parseAR (['r'] ++ ('/' :: (['i'] ++ (':' :: ['t'])))) none
      (some defaultLocation) none none none none (some ['e'])
      (some ['x'])).version = none :=
  shorthand_tag_amended ['r'] ['i'] ['t'] ['e'] ['x'] (by decide) (by decide)
    (by decide) (by decide) (by decide) (by decide) (by decide) (by decide)
    (by decide)
